import Mathlib

/-!
Verification of the `json_size` crate: a single recursive estimator
`sizeof_val` over `serde_json::Value` trees, plus a second copy of the
function found in the packaged release under
`target/package/json_size-0.1.0/src/lib.rs`.

The Rust code is embedded shallowly.  Platform-dependent quantities
(`size_of::<usize>()`, `size_of::<String>()`, `size_of::<serde_json::Value>()`)
are parameters of the model: a `Platform` carries the pointer width and the
size of the tagged-union `Value` representation.  Rust guarantees that a
`String` is pointer + capacity + length, i.e. three pointer-sized words.
-/

namespace JsonSize

/-- Host platform parameters: `ptrSize` is `size_of::<usize>()` in bytes and
`valueSize` is `size_of::<serde_json::Value>()`, the envelope cost of one
tagged-union JSON value. -/
structure Platform where
  ptrSize : Nat
  valueSize : Nat
deriving DecidableEq

/-- Model of `size_of::<usize>()`. -/
def sizeOfUsize (p : Platform) : Nat := p.ptrSize

/-- Model of `size_of::<String>()`: a Rust `String` holds a data pointer, a
capacity word and a length word, so its metadata occupies three
pointer-sized words. -/
def sizeOfString (p : Platform) : Nat := 3 * p.ptrSize

/-- Model of `size_of::<serde_json::Value>()`, the envelope cost charged once
per tree node. -/
def sizeOfValue (p : Platform) : Nat := p.valueSize

/-- `const STRING_OVERHEAD: usize = size_of::<String>();` from `src/lib.rs`. -/
def STRING_OVERHEAD (p : Platform) : Nat := sizeOfString p

/-- `const MAP_ENTRY_OVERHEAD: usize = size_of::<usize>() * 3;` from
`src/lib.rs`. -/
def MAP_ENTRY_OVERHEAD (p : Platform) : Nat := sizeOfUsize p * 3

/-- A Rust `String` value: its character data, the allocated capacity of the
backing buffer in bytes, and the invariant of the Rust type that the
allocated capacity is at least the byte length of the data. -/
structure RustString where
  data : String
  capacity : Nat
  len_le_capacity : data.utf8ByteSize ≤ capacity

/-- The payload of a `serde_json::Number`: an unsigned integer, a negative
integer, or a double (represented here by its 64-bit pattern; the estimator
never inspects it). -/
inductive RNumber where
  | posInt (n : Nat)
  | negInt (n : Int)
  | float (bits : Nat)

/-- `serde_json::Value`: a JSON tree with five variant kinds.  Objects are
modelled as association lists, preserving insertion order as the crate's
`preserve_order` map does. -/
inductive Value where
  | null
  | bool (b : Bool)
  | number (n : RNumber)
  | string (s : RustString)
  | array (a : List Value)
  | object (o : List (RustString × Value))

mutual

/-- `pub fn sizeof_val(v: &Value) -> usize` from `src/src/lib.rs`:
`size_of::<Value>()` plus a per-variant payload. -/
def sizeof_val (p : Platform) : Value → Nat
  | .null => sizeOfValue p + 0
  | .bool _ => sizeOfValue p + 0
  | .number _ => sizeOfValue p + 0
  | .string s => sizeOfValue p + (STRING_OVERHEAD p + s.capacity)
  | .array a => sizeOfValue p + sizeof_list p a
  | .object o => sizeOfValue p + sizeof_entries p o

/-- `a.iter().map(sizeof_val).sum()`: the running sum over an array's
elements. -/
def sizeof_list (p : Platform) : List Value → Nat
  | [] => 0
  | v :: rest => sizeof_val p v + sizeof_list p rest

/-- `o.iter().map(|(k, v)| STRING_OVERHEAD + k.capacity() + sizeof_val(v) +
MAP_ENTRY_OVERHEAD).sum()`: the running sum over an object's entries. -/
def sizeof_entries (p : Platform) : List (RustString × Value) → Nat
  | [] => 0
  | (k, v) :: rest =>
      (STRING_OVERHEAD p + k.capacity + sizeof_val p v + MAP_ENTRY_OVERHEAD p)
        + sizeof_entries p rest

end

mutual

/-- `pub fn sizeof_val(v: &serde_json::Value) -> usize` from the packaged
copy `target/package/json_size-0.1.0/src/lib.rs`.  Its `String` arm adds only
`s.capacity()`, with no string-metadata overhead. -/
def sizeof_val_pkg (p : Platform) : Value → Nat
  | .null => sizeOfValue p + 0
  | .bool _ => sizeOfValue p + 0
  | .number _ => sizeOfValue p + 0
  | .string s => sizeOfValue p + s.capacity
  | .array a => sizeOfValue p + sizeof_list_pkg p a
  | .object o => sizeOfValue p + sizeof_entries_pkg p o

/-- Array sum of the packaged copy. -/
def sizeof_list_pkg (p : Platform) : List Value → Nat
  | [] => 0
  | v :: rest => sizeof_val_pkg p v + sizeof_list_pkg p rest

/-- Object-entry sum of the packaged copy:
`size_of::<String>() + k.capacity() + sizeof_val(v) + size_of::<usize>() * 3`. -/
def sizeof_entries_pkg (p : Platform) : List (RustString × Value) → Nat
  | [] => 0
  | (k, v) :: rest =>
      (sizeOfString p + k.capacity + sizeof_val_pkg p v + sizeOfUsize p * 3)
        + sizeof_entries_pkg p rest

end

mutual

/-- Nesting depth of a JSON tree: every node costs one level. -/
def height : Value → Nat
  | .null => 1
  | .bool _ => 1
  | .number _ => 1
  | .string _ => 1
  | .array a => heightList a + 1
  | .object o => heightEntries o + 1

/-- Greatest height among a list of values. -/
def heightList : List Value → Nat
  | [] => 0
  | v :: rest => max (height v) (heightList rest)

/-- Greatest height among the values of an entry list. -/
def heightEntries : List (RustString × Value) → Nat
  | [] => 0
  | kv :: rest => max (height kv.2) (heightEntries rest)

end

mutual

/-- Number of string-variant nodes in a JSON tree (object keys not
counted). -/
def stringCount : Value → Nat
  | .null => 0
  | .bool _ => 0
  | .number _ => 0
  | .string _ => 1
  | .array a => stringCountList a
  | .object o => stringCountEntries o

/-- Total string-variant node count of a list of values. -/
def stringCountList : List Value → Nat
  | [] => 0
  | v :: rest => stringCount v + stringCountList rest

/-- Total string-variant node count over the values of an entry list. -/
def stringCountEntries : List (RustString × Value) → Nat
  | [] => 0
  | kv :: rest => stringCount kv.2 + stringCountEntries rest

end

mutual

/-- Fuel-bounded evaluator for `sizeof_val`: each recursive descent consumes
one unit of fuel and exhaustion yields `none`.  It makes the termination of
the Rust recursion a provable statement: enough fuel always yields `some`. -/
def sizeof_val_fuel (p : Platform) : Nat → Value → Option Nat
  | 0, _ => none
  | _ + 1, .null => some (sizeOfValue p + 0)
  | _ + 1, .bool _ => some (sizeOfValue p + 0)
  | _ + 1, .number _ => some (sizeOfValue p + 0)
  | _ + 1, .string s => some (sizeOfValue p + (STRING_OVERHEAD p + s.capacity))
  | f + 1, .array a => (sizeof_list_fuel p f a).map (fun n => sizeOfValue p + n)
  | f + 1, .object o => (sizeof_entries_fuel p f o).map (fun n => sizeOfValue p + n)

/-- Fuel-bounded sum over array elements. -/
def sizeof_list_fuel (p : Platform) (f : Nat) : List Value → Option Nat
  | [] => some 0
  | v :: rest =>
      match sizeof_val_fuel p f v, sizeof_list_fuel p f rest with
      | some n, some m => some (n + m)
      | _, _ => none

/-- Fuel-bounded sum over object entries. -/
def sizeof_entries_fuel (p : Platform) (f : Nat) : List (RustString × Value) → Option Nat
  | [] => some 0
  | (k, v) :: rest =>
      match sizeof_val_fuel p f v, sizeof_entries_fuel p f rest with
      | some n, some m =>
          some ((STRING_OVERHEAD p + k.capacity + n + MAP_ENTRY_OVERHEAD p) + m)
      | _, _ => none

end

/-- Structural induction principle for the nested inductive `Value`: to prove
a property of every tree it suffices to handle each variant, given the
property for every element of an array and every entry value of an object. -/
def value_ind {motive : Value → Prop}
    (hnull : motive .null)
    (hbool : ∀ b, motive (.bool b))
    (hnum : ∀ n, motive (.number n))
    (hstr : ∀ s, motive (.string s))
    (harr : ∀ a, (∀ v, v ∈ a → motive v) → motive (.array a))
    (hobj : ∀ o, (∀ kv, kv ∈ o → motive kv.2) → motive (.object o)) :
    ∀ v, motive v
  | .null => hnull
  | .bool b => hbool b
  | .number n => hnum n
  | .string s => hstr s
  | .array a => harr a (fun v _ => value_ind hnull hbool hnum hstr harr hobj v)
  | .object o => hobj o (fun kv _ => value_ind hnull hbool hnum hstr harr hobj kv.2)
termination_by v => sizeOf v
decreasing_by
  · rename_i hv
    have h1 := List.sizeOf_lt_of_mem hv
    simp only [Value.array.sizeOf_spec]
    omega
  · rename_i hkv
    have h1 := List.sizeOf_lt_of_mem hkv
    obtain ⟨k, w⟩ := kv
    simp only [Value.object.sizeOf_spec, Prod.mk.sizeOf_spec] at *
    omega

/-! Helper lemmas shared by the claim theorems. -/

theorem sizeof_list_eq_sum (p : Platform) (l : List Value) :
    sizeof_list p l = (l.map (sizeof_val p)).sum := by
  induction l with
  | nil => rfl
  | cons v rest ih => simp [sizeof_list, ih]

theorem sizeof_entries_eq_sum (p : Platform) (o : List (RustString × Value)) :
    sizeof_entries p o
      = (o.map (fun kv => STRING_OVERHEAD p + kv.1.capacity + sizeof_val p kv.2
          + MAP_ENTRY_OVERHEAD p)).sum := by
  induction o with
  | nil => rfl
  | cons kv rest ih =>
      obtain ⟨k, v⟩ := kv
      simp [sizeof_entries, ih]

theorem height_pos (v : Value) : 1 ≤ height v := by
  cases v <;> simp [height]

theorem height_le_heightList {v : Value} {l : List Value} (h : v ∈ l) :
    height v ≤ heightList l := by
  induction l with
  | nil => cases h
  | cons w rest ih =>
      rcases List.mem_cons.mp h with rfl | h
      · simp [heightList]
      · exact le_trans (ih h) (by simp [heightList])

theorem height_le_heightEntries {kv : RustString × Value}
    {o : List (RustString × Value)} (h : kv ∈ o) :
    height kv.2 ≤ heightEntries o := by
  induction o with
  | nil => cases h
  | cons kw rest ih =>
      rcases List.mem_cons.mp h with rfl | h
      · simp [heightEntries]
      · exact le_trans (ih h) (by simp [heightEntries])

theorem sizeof_list_fuel_sound (p : Platform) (f : Nat) {l : List Value}
    (h : ∀ v, v ∈ l → sizeof_val_fuel p f v = some (sizeof_val p v)) :
    sizeof_list_fuel p f l = some (sizeof_list p l) := by
  induction l with
  | nil => rfl
  | cons v rest ih =>
      have h1 := h v (by simp)
      have h2 := ih (fun w hw => h w (by simp [hw]))
      simp [sizeof_list_fuel, h1, h2, sizeof_list]

theorem sizeof_entries_fuel_sound (p : Platform) (f : Nat)
    {o : List (RustString × Value)}
    (h : ∀ kv, kv ∈ o → sizeof_val_fuel p f kv.2 = some (sizeof_val p kv.2)) :
    sizeof_entries_fuel p f o = some (sizeof_entries p o) := by
  induction o with
  | nil => rfl
  | cons kv rest ih =>
      obtain ⟨k, v⟩ := kv
      have h1 := h (k, v) (by simp)
      have h2 := ih (fun kw hkw => h kw (by simp [hkw]))
      simp only at h1
      simp [sizeof_entries_fuel, h1, h2, sizeof_entries]

theorem sizeof_val_fuel_sound (p : Platform) :
    ∀ f v, height v ≤ f → sizeof_val_fuel p f v = some (sizeof_val p v) := by
  intro f
  induction f with
  | zero =>
      intro v h
      exfalso
      have := height_pos v
      omega
  | succ f ih =>
      intro v h
      cases v with
      | null => rfl
      | bool b => rfl
      | number n => rfl
      | string s => rfl
      | array a =>
          have hl : heightList a ≤ f := by
            simp only [height] at h
            omega
          have hs : sizeof_list_fuel p f a = some (sizeof_list p a) :=
            sizeof_list_fuel_sound p f
              (fun v hv => ih v (le_trans (height_le_heightList hv) hl))
          simp [sizeof_val_fuel, hs, sizeof_val]
      | object o =>
          have hl : heightEntries o ≤ f := by
            simp only [height] at h
            omega
          have hs : sizeof_entries_fuel p f o = some (sizeof_entries p o) :=
            sizeof_entries_fuel_sound p f
              (fun kv hkv => ih kv.2 (le_trans (height_le_heightEntries hkv) hl))
          simp [sizeof_val_fuel, hs, sizeof_val]

theorem sizeof_list_eq_pkg_add (p : Platform) {l : List Value}
    (h : ∀ v, v ∈ l →
      sizeof_val p v = sizeof_val_pkg p v + STRING_OVERHEAD p * stringCount v) :
    sizeof_list p l
      = sizeof_list_pkg p l + STRING_OVERHEAD p * stringCountList l := by
  induction l with
  | nil => rfl
  | cons v rest ih =>
      have h1 := h v (by simp)
      have h2 := ih (fun w hw => h w (by simp [hw]))
      simp only [sizeof_list, sizeof_list_pkg, stringCountList, h1, h2,
        Nat.mul_add]
      omega

theorem sizeof_entries_eq_pkg_add (p : Platform) {o : List (RustString × Value)}
    (h : ∀ kv, kv ∈ o →
      sizeof_val p kv.2 = sizeof_val_pkg p kv.2 + STRING_OVERHEAD p * stringCount kv.2) :
    sizeof_entries p o
      = sizeof_entries_pkg p o + STRING_OVERHEAD p * stringCountEntries o := by
  induction o with
  | nil => rfl
  | cons kv rest ih =>
      obtain ⟨k, v⟩ := kv
      have h1 := h (k, v) (by simp)
      have h2 := ih (fun kw hkw => h kw (by simp [hkw]))
      simp only at h1
      simp only [sizeof_entries, sizeof_entries_pkg, stringCountEntries, h1, h2,
        Nat.mul_add, STRING_OVERHEAD, MAP_ENTRY_OVERHEAD]
      omega

/-! Claim theorems. -/

/-- C1: for every string value `s`, the estimate equals the envelope cost plus
`STRING_OVERHEAD` plus the string's allocated capacity in bytes, and the
capacity is at least the string's byte length. -/
theorem string_estimate_spec (p : Platform) (s : RustString) :
    sizeof_val p (.string s) = sizeOfValue p + STRING_OVERHEAD p + s.capacity
      ∧ s.data.utf8ByteSize ≤ s.capacity := by
  refine ⟨?_, s.len_le_capacity⟩
  simp only [sizeof_val]
  omega

/-- C2: for every object, the estimate equals the envelope cost plus, summed
over every key-value pair, `STRING_OVERHEAD` plus the key's allocated capacity
plus the recursive estimate of the value plus `MAP_ENTRY_OVERHEAD`; an empty
object's estimate is exactly the envelope cost. -/
theorem object_estimate_spec (p : Platform) (o : List (RustString × Value)) :
    sizeof_val p (.object o)
      = sizeOfValue p + (o.map (fun kv => STRING_OVERHEAD p + kv.1.capacity
          + sizeof_val p kv.2 + MAP_ENTRY_OVERHEAD p)).sum
      ∧ sizeof_val p (.object []) = sizeOfValue p := by
  refine ⟨?_, rfl⟩
  simp only [sizeof_val, sizeof_entries_eq_sum]

/-- C3: for every array, the estimate equals the envelope cost plus the sum of
the recursive estimates of its elements in order; an empty array's estimate is
exactly the envelope cost. -/
theorem array_estimate_spec (p : Platform) (a : List Value) :
    sizeof_val p (.array a)
      = sizeOfValue p + (a.map (sizeof_val p)).sum
      ∧ sizeof_val p (.array []) = sizeOfValue p := by
  refine ⟨?_, rfl⟩
  simp only [sizeof_val, sizeof_list_eq_sum]

/-- C4: for every null, boolean, or number value, the estimate equals exactly
the envelope cost, regardless of the number's representation. -/
theorem scalar_estimate_spec (p : Platform) (b : Bool) (n : RNumber) :
    sizeof_val p .null = sizeOfValue p
      ∧ sizeof_val p (.bool b) = sizeOfValue p
      ∧ sizeof_val p (.number n) = sizeOfValue p :=
  ⟨rfl, rfl, rfl⟩

/-- C5: the estimate is monotonic: appending an element to an array, adding a
key-value pair to an object, or increasing a string value's allocated
capacity never decreases the result. -/
theorem sizeof_val_monotone (p : Platform) (a : List Value) (v : Value)
    (o : List (RustString × Value)) (k : RustString) (w : Value)
    (s t : RustString) (hcap : s.capacity ≤ t.capacity) :
    sizeof_val p (.array a) ≤ sizeof_val p (.array (a ++ [v]))
      ∧ sizeof_val p (.object o) ≤ sizeof_val p (.object (o ++ [(k, w)]))
      ∧ sizeof_val p (.string s) ≤ sizeof_val p (.string t) := by
  refine ⟨?_, ?_, ?_⟩
  · simp only [sizeof_val, sizeof_list_eq_sum, List.map_append, List.sum_append]
    omega
  · simp only [sizeof_val, sizeof_entries_eq_sum, List.map_append,
      List.sum_append]
    omega
  · simp only [sizeof_val]
    omega

/-- Witness for C5 at a concrete platform, array, object and string pair. -/
theorem sizeof_val_monotone_witness :
    sizeof_val ⟨8, 32⟩ (.array []) ≤ sizeof_val ⟨8, 32⟩ (.array ([] ++ [.null]))
      ∧ sizeof_val ⟨8, 32⟩ (.object [])
          ≤ sizeof_val ⟨8, 32⟩ (.object ([] ++ [(⟨"k", 1, by decide⟩, .null)]))
      ∧ sizeof_val ⟨8, 32⟩ (.string ⟨"a", 1, by decide⟩)
          ≤ sizeof_val ⟨8, 32⟩ (.string ⟨"ab", 2, by decide⟩) :=
  sizeof_val_monotone ⟨8, 32⟩ [] .null [] ⟨"k", 1, by decide⟩ .null
    ⟨"a", 1, by decide⟩ ⟨"ab", 2, by decide⟩ (by decide)

/-- C6: for every JSON value tree, `sizeof_val` returns at least the envelope
cost of the root node. -/
theorem estimate_ge_envelope (p : Platform) (v : Value) :
    sizeOfValue p ≤ sizeof_val p v := by
  cases v <;> simp only [sizeof_val] <;> omega

/-- C7: the derived constants are computed from the host representation:
`MAP_ENTRY_OVERHEAD` is exactly three pointer-sized words, and
`STRING_OVERHEAD` is the metadata size of the host string type, itself three
pointer-sized words of pointer, capacity and length. -/
theorem overhead_constants_spec (p : Platform) :
    MAP_ENTRY_OVERHEAD p = 3 * sizeOfUsize p
      ∧ STRING_OVERHEAD p = sizeOfString p
      ∧ sizeOfString p = 3 * p.ptrSize
      ∧ sizeOfUsize p = p.ptrSize :=
  ⟨Nat.mul_comm (sizeOfUsize p) 3, rfl, rfl, rfl⟩

/-- C8: `sizeof_val` is total: on every tree, any fuel bound at least the
tree's height makes the fuel-bounded evaluator return `some` of the
recursive result — the recursion terminates and cannot fail. -/
theorem sizeof_val_total (p : Platform) (v : Value) (f : Nat)
    (h : height v ≤ f) :
    sizeof_val_fuel p f v = some (sizeof_val p v) :=
  sizeof_val_fuel_sound p f v h

/-- Witness for C8 at a concrete platform, tree and fuel bound. -/
theorem sizeof_val_total_witness :
    height (.array [.null, .bool true]) ≤ 2
      ∧ sizeof_val_fuel ⟨8, 32⟩ 2 (.array [.null, .bool true])
          = some (sizeof_val ⟨8, 32⟩ (.array [.null, .bool true])) :=
  ⟨by decide, sizeof_val_total ⟨8, 32⟩ (.array [.null, .bool true]) 2 (by decide)⟩

/-- C9: the estimate of an object does not depend on the order of its
entries: any permutation of the key-value pairs yields the same result. -/
theorem object_perm_invariant (p : Platform) (o₁ o₂ : List (RustString × Value))
    (h : o₁.Perm o₂) :
    sizeof_val p (.object o₁) = sizeof_val p (.object o₂) := by
  have hs := (h.map (fun kv => STRING_OVERHEAD p + kv.1.capacity
    + sizeof_val p kv.2 + MAP_ENTRY_OVERHEAD p)).sum_eq
  simp only [sizeof_val, sizeof_entries_eq_sum, hs]

/-- Witness for C9: swapping the two entries of a concrete object leaves the
estimate unchanged. -/
theorem object_perm_invariant_witness :
    sizeof_val ⟨8, 32⟩
        (.object [(⟨"a", 1, by decide⟩, .null), (⟨"b", 1, by decide⟩, .bool true)])
      = sizeof_val ⟨8, 32⟩
        (.object [(⟨"b", 1, by decide⟩, .bool true), (⟨"a", 1, by decide⟩, .null)]) :=
  object_perm_invariant ⟨8, 32⟩ _ _ (List.Perm.swap _ _ _)

/-- C10 counterexample: the two copies of `sizeof_val` disagree on the empty
string at the 64-bit platform — the main copy adds `STRING_OVERHEAD`, the
packaged copy does not. -/
theorem pkg_copy_differs :
    sizeof_val ⟨8, 32⟩ (.string ⟨"", 0, by decide⟩)
      ≠ sizeof_val_pkg ⟨8, 32⟩ (.string ⟨"", 0, by decide⟩) := by
  decide

/-- C10 amended: the main `sizeof_val` exceeds the packaged copy by exactly
`STRING_OVERHEAD` per string-variant node, so the two agree precisely on
trees that contain no string value. -/
theorem sizeof_val_eq_pkg_add_overhead (p : Platform) (v : Value) :
    sizeof_val p v = sizeof_val_pkg p v + STRING_OVERHEAD p * stringCount v := by
  induction v using value_ind with
  | hnull => rfl
  | hbool b => rfl
  | hnum n => rfl
  | hstr s =>
      simp only [sizeof_val, sizeof_val_pkg, stringCount]
      omega
  | harr a ih =>
      have := sizeof_list_eq_pkg_add p ih
      simp only [sizeof_val, sizeof_val_pkg, stringCount, this]
      omega
  | hobj o ih =>
      have := sizeof_entries_eq_pkg_add p ih
      simp only [sizeof_val, sizeof_val_pkg, stringCount, this]
      omega

end JsonSize
